import Mathlib

/-!
# Scope tracking and allow-lists of the contract verifier

A shallow embedding of `src/lib/defines.h` (namespace `contractverify`): the enum
`ScopeSpec`, the function `getScopedName`, the struct `AnalysisData` with its member
`isDirectlyInClassOrStruct`, and the three static tables. Operations that the header only
declares data for (entering and leaving scopes, the IO-eligibility flag, the membership
queries) are modelled from the specification and marked as such.

Machine integers: `int` is 32 bits and `size_t` is 64 bits. An `int` is an `Int` in the
range `-2^31 .. 2^31 - 1`; its conversion to `size_t` is reduction modulo `2^64`. The
increment `++s` has a value only below `2^31 - 1`: at `2^31 - 1` it overflows, which the
language leaves undefined, and the embedding stops there with `Fault.signedOverflow`
instead of choosing a value. No increment overflows when the vector has at most `2^31 - 1`
elements or the start index is negative.
-/

set_option autoImplicit false

namespace contractverify

/-! ## Definitions -/

/-- The enum `ScopeSpec` of `defines.h`, in declaration order (values 0 to 6). -/
inductive ScopeSpec where
  | STRUCT
  | CLASS
  | NAMESPACE
  | BLOCK
  | TEMPL_SPEC
  | FUNC_SIG
  | TYPEDEF
  deriving DecidableEq, Repr

/-- Ways in which the model of a function can stop without a result: a subscript outside
the vector, the iteration budget used up, and an `int` increment that overflows (from which
point the source has no defined behaviour). -/
inductive Fault where
  | outOfRange
  | outOfFuel
  | signedOverflow
  deriving DecidableEq, Repr

deriving instance DecidableEq for Except

/-- Conversion of an `int` to `size_t` (64 bits): the value modulo `2^64`. It is applied to
`s` both in the comparison `s < names.size()` and in the subscript `names[s]`. -/
def toSizeT (s : Int) : Nat := (s % 18446744073709551616).toNat

/-- The increment `++s` of a 32-bit `int`: `s + 1` below `2^31 - 1`, and no value at
`2^31 - 1`, where the increment overflows and the language defines no result. -/
def incInt (s : Int) : Option Int :=
  if s < 2147483647 then some (s + 1) else none

/-- The expression `names.size() - 1`, computed in `size_t`: it is `2^64 - 1` for size 0. -/
def sizeMinusOne (size : Nat) : Nat := (size + 18446744073709551615) % 18446744073709551616

/-- The `for` loop of `getScopedName`, run for at most `fuel` iterations from the current
`int s` and the current contents `result` of the stream. The second component records, in
order, every value of `s` at which `names[s]` was read. An iteration whose `++s` overflows
ends the run with `Fault.signedOverflow`. -/
def getScopedNameLoop (names : List String) :
    Nat → Int → String → List Int → Except Fault (String × List Int)
  | fuel, s, result, reads =>
    if toSizeT s < names.length then
      match fuel with
      | 0 => Except.error Fault.outOfFuel
      | fuel + 1 =>
        match names[toSizeT s]? with
        | none => Except.error Fault.outOfRange
        | some name =>
          let result := result ++ name
          let result := if toSizeT s ≠ sizeMinusOne names.length then result ++ "::" else result
          match incInt s with
          | none => Except.error Fault.signedOverflow
          | some next => getScopedNameLoop names fuel next result (reads ++ [s])
    else Except.ok (result, reads)

/-- The function `getScopedName` together with the record of its element reads. The loop
is given `names.size()` iterations. -/
def getScopedNameRun (names : List String) (startIndex : Int) :
    Except Fault (String × List Int) :=
  getScopedNameLoop names names.length startIndex "" []

/-- The function `getScopedName(names, startIndex)`. -/
def getScopedName (names : List String) (startIndex : Int) : Except Fault String :=
  (getScopedNameRun names startIndex).map Prod.fst

/-- The struct `AnalysisData`. A `std::stack` is a list whose head is the top of the stack;
a `std::vector` is a list in index order. -/
structure AnalysisData where
  scopeStack : List ScopeSpec
  scopeNames : List String
  allowedAsIOStruct : List Bool
  additionalScopePrefixes : List String
  additionalInputOutputTypes : List (List String)
  deriving DecidableEq, Repr

/-- The member `AnalysisData::isDirectlyInClassOrStruct`: the short-circuit `&&` guards the
two `top()` calls, so the empty stack yields `false` without reading a top element. -/
def AnalysisData.isDirectlyInClassOrStruct (d : AnalysisData) : Bool :=
  match d.scopeStack with
  | [] => false
  | top :: _ => top == ScopeSpec.CLASS || top == ScopeSpec.STRUCT

/-- A freshly constructed `AnalysisData`: every container empty. -/
def AnalysisData.initial : AnalysisData :=
  { scopeStack := [], scopeNames := [], allowedAsIOStruct := [],
    additionalScopePrefixes := [], additionalInputOutputTypes := [] }

/-- The table `knownMacroNames`, entry by entry in source order. -/
def knownMacroNames : List String := [
  "INITIALIZE",
  "INITIALIZE_WITH_LOCALS",
  "BEGIN_EPOCH",
  "BEGIN_EPOCH_WITH_LOCALS",
  "END_EPOCH",
  "END_EPOCH_WITH_LOCALS",
  "BEGIN_TICK",
  "BEGIN_TICK_WITH_LOCALS",
  "END_TICK",
  "END_TICK_WITH_LOCALS",
  "PRE_ACQUIRE_SHARES",
  "PRE_ACQUIRE_SHARES_WITH_LOCALS",
  "PRE_RELEASE_SHARES",
  "PRE_RELEASE_SHARES_WITH_LOCALS",
  "POST_ACQUIRE_SHARES",
  "POST_ACQUIRE_SHARES_WITH_LOCALS",
  "POST_RELEASE_SHARES",
  "POST_RELEASE_SHARES_WITH_LOCALS",
  "POST_INCOMING_TRANSFER",
  "POST_INCOMING_TRANSFER_WITH_LOCALS",
  "EXPAND",
  "LOG_DEBUG",
  "LOG_ERROR",
  "LOG_INFO",
  "LOG_WARNING",
  "LOG_PAUSE",
  "LOG_RESUME",
  "PRIVATE_FUNCTION",
  "PRIVATE_FUNCTION_WITH_LOCALS",
  "PRIVATE_PROCEDURE",
  "PRIVATE_PROCEDURE_WITH_LOCALS",
  "PUBLIC_FUNCTION",
  "PUBLIC_FUNCTION_WITH_LOCALS",
  "PUBLIC_PROCEDURE",
  "PUBLIC_PROCEDURE_WITH_LOCALS",
  "REGISTER_USER_FUNCTIONS_AND_PROCEDURES",
  "REGISTER_USER_FUNCTION",
  "REGISTER_USER_PROCEDURE",
  "CALL",
  "CALL_OTHER_CONTRACT_FUNCTION",
  "INVOKE_OTHER_CONTRACT_PROCEDURE",
  "QUERY_ORACLE",
  "SELF",
  "SELF_INDEX",
  "STATIC_ASSERT",
  "DEFINE_SHAREHOLDER_PROPOSAL_STORAGE",
  "IMPLEMENT_SetShareholderProposal",
  "IMPLEMENT_GetShareholderProposal",
  "IMPLEMENT_GetShareholderProposalIndices",
  "IMPLEMENT_GetShareholderProposalFees",
  "IMPLEMENT_SetShareholderVotes",
  "IMPLEMENT_GetShareholderVotes",
  "IMPLEMENT_GetShareholderVotingResults",
  "IMPLEMENT_SET_SHAREHOLDER_PROPOSAL",
  "IMPLEMENT_SET_SHAREHOLDER_VOTES",
  "IMPLEMENT_FinalizeShareholderStateVarProposals",
  "IMPLEMENT_DEFAULT_SHAREHOLDER_PROPOSAL_VOTING",
  "REGISTER_SHAREHOLDER_PROPSAL_VOTING",
  "REGISTER_GetShareholderProposalFees",
  "REGISTER_GetShareholderProposalIndices",
  "REGISTER_GetShareholderProposal",
  "REGISTER_GetShareholderVotes",
  "REGISTER_GetShareholderVotingResults",
  "REGISTER_SetShareholderProposal",
  "REGISTER_SetShareholderVotes"
]

/-- The table `allowedScopePrefixes`, entry by entry in source order. -/
def allowedScopePrefixes : List String := [
  "QPI",
  "id",
  "ProposalTypes",
  "TransferType",
  "AssetIssuanceSelect",
  "AssetOwnershipSelect",
  "AssetPossessionSelect",
  "QX",
  "QUOTTERY",
  "RANDOM",
  "QUTIL",
  "MLM",
  "GQMPROP",
  "SWATCH",
  "CCF",
  "QEARN",
  "QVAULT",
  "MSVAULT",
  "QBAY",
  "QSWAP",
  "NOST",
  "QDRAW",
  "RL",
  "QBOND",
  "QIP",
  "QRAFFLE",
  "TESTEXA",
  "TESTEXB",
  "QRP",
  "QTF",
  "QDUEL",
  "QRWA"
]

/-- The table `allowedInputOutputTypes`, entry by entry in source order. -/
def allowedInputOutputTypes : List String := [
  "id",
  "DateAndTime",
  "Entity",
  "Asset",
  "NoData",
  "ProposalDataV1<true>",
  "ProposalDataV1<false>",
  "ProposalSingleVoteDataV1",
  "ProposalSummarizedVotingDataV1",
  "ProposalDataYesNo",
  "PreManagementRightsTransfer_input",
  "PreManagementRightsTransfer_output",
  "PostManagementRightsTransfer_input",
  "PostIncomingTransfer_input",
  "TESTEXA::QueryQpiFunctions_input",
  "TESTEXA::QueryQpiFunctions_output",
  "bool",
  "bit",
  "sint8",
  "uint8",
  "sint16",
  "uint16",
  "sint32",
  "uint32",
  "sint64",
  "uint64",
  "uint128",
  "bit_2",
  "bit_4",
  "bit_8",
  "bit_16",
  "bit_32",
  "bit_64",
  "bit_128",
  "bit_256",
  "bit_512",
  "bit_1024",
  "bit_2048",
  "bit_4096",
  "sint8_2",
  "sint8_4",
  "sint8_8",
  "uint8_2",
  "uint8_4",
  "uint8_8",
  "sint16_2",
  "sint16_4",
  "sint16_8",
  "uint16_2",
  "uint16_4",
  "uint16_8",
  "sint32_2",
  "sint32_4",
  "sint32_8",
  "uint32_2",
  "uint32_4",
  "uint32_8",
  "sint64_2",
  "sint64_4",
  "sint64_8",
  "uint64_2",
  "uint64_4",
  "uint64_8",
  "id_2",
  "id_4",
  "id_8"
]

/-! ### Operations modelled from the specification -/

/-- Modelled from the spec: the query `isAllowedScopePrefix` of the Allow-list Registry
(section 4.1), whose code is not in `defines.h`: an exact-string membership test in
`allowedScopePrefixes` ∪ the per-run `additionalScopePrefixes`. -/
def isAllowedScopePrefix (d : AnalysisData) (name : String) : Bool :=
  decide (name ∈ allowedScopePrefixes) || decide (name ∈ d.additionalScopePrefixes)

/-- Modelled from the spec: the base part of the query `isAllowedIOType` of the Allow-list
Registry (section 4.1), whose code is not in `defines.h`: an exact-string membership test
in the table `allowedInputOutputTypes`. -/
def isBaseIOType (spelling : String) : Bool :=
  decide (spelling ∈ allowedInputOutputTypes)

/-- Modelled from the spec: `enter(kind)` of the Scope Tracker (section 4.2), whose code is
not in `defines.h`: it pushes `kind` on `scopeStack`. -/
def AnalysisData.enter (d : AnalysisData) (kind : ScopeSpec) : AnalysisData :=
  { d with scopeStack := kind :: d.scopeStack }

/-- Modelled from the spec: `exit()` of the Scope Tracker (section 4.2), whose code is not
in `defines.h`: it pops `scopeStack`, and fails (`none`) if the stack is already empty. -/
def AnalysisData.exit (d : AnalysisData) : Option AnalysisData :=
  match d.scopeStack with
  | [] => none
  | _ :: rest => some { d with scopeStack := rest }

/-- An event of the tree walk that moves the scope stack. -/
inductive ScopeEvent where
  | enter (kind : ScopeSpec)
  | exit
  deriving DecidableEq, Repr

/-- Modelled from the spec: the walk applies the events in order (section 2, control
flow); a failed `exit()` is fatal and stops the walk (section 7). -/
def runEvents : List ScopeEvent → AnalysisData → Option AnalysisData
  | [], d => some d
  | ScopeEvent.enter kind :: rest, d => runEvents rest (d.enter kind)
  | ScopeEvent.exit :: rest, d =>
    match d.exit with
    | none => none
    | some d1 => runEvents rest d1

/-- Properly nested event sequences: the empty sequence, a nested sequence enclosed by an
`enter` and its matching `exit`, and the concatenation of two nested sequences. -/
inductive WellNested : List ScopeEvent → Prop where
  | nil : WellNested []
  | wrap (kind : ScopeSpec) (inner : List ScopeEvent) :
      WellNested inner → WellNested (ScopeEvent.enter kind :: inner ++ [ScopeEvent.exit])
  | append (first second : List ScopeEvent) :
      WellNested first → WellNested second → WellNested (first ++ second)

/-- Number of `enter` events in a sequence. -/
def countEnters (es : List ScopeEvent) : Nat :=
  es.countP (fun e => e != ScopeEvent.exit)

/-- Number of `exit` events in a sequence. -/
def countExits (es : List ScopeEvent) : Nat :=
  es.countP (fun e => e == ScopeEvent.exit)

/-- Modelled from the spec: `pushIOFlag()` of the Scope Tracker (section 4.2), whose code
is not in `defines.h`: on entering a struct or class, `true` is pushed on
`allowedAsIOStruct`. -/
def AnalysisData.pushIOFlag (d : AnalysisData) : AnalysisData :=
  { d with allowedAsIOStruct := true :: d.allowedAsIOStruct }

/-- Modelled from the spec: `setIOFlagFalse()` of the Scope Tracker (section 4.2), whose
code is not in `defines.h`: the flag on top of `allowedAsIOStruct` becomes `false`. With no
open struct there is no flag to set (`none`). -/
def AnalysisData.setIOFlagFalse (d : AnalysisData) : Option AnalysisData :=
  match d.allowedAsIOStruct with
  | [] => none
  | _ :: below => some { d with allowedAsIOStruct := false :: below }

/-- A field declaration of a struct: its type spelling and its name. -/
structure Field where
  spelling : String
  name : String
  deriving DecidableEq, Repr

/-- Modelled from the spec: rule 4 of the Declaration Rule Engine (section 4.3), whose code
is not in `defines.h`, for one field and the base table: when the declaration is directly
in a struct or class that is still IO-eligible and the field's spelling is not an allowed
type, the flag of that struct is set to `false`; otherwise nothing changes. -/
def AnalysisData.checkField (d : AnalysisData) (f : Field) : Option AnalysisData :=
  if d.isDirectlyInClassOrStruct then
    match d.allowedAsIOStruct with
    | true :: _ => if isBaseIOType f.spelling then some d else d.setIOFlagFalse
    | _ => some d
  else some d

/-- Modelled from the spec: the IO-eligibility flag of a top-level struct after its fields
have been visited in order: the struct is entered and `true` is pushed, rule 4 is applied
to each field, and the flag is read from the top of `allowedAsIOStruct`. -/
def ioFlagAfterFields (fields : List Field) : Option Bool :=
  (fields.foldlM AnalysisData.checkField
    (AnalysisData.initial.enter ScopeSpec.STRUCT).pushIOFlag).bind
    (fun d => d.allowedAsIOStruct.head?)

/-- The fields of a struct whose spelling is not in the base table. -/
def offendingFields (fields : List Field) : List Field :=
  fields.filter (fun f => !isBaseIOType f.spelling)

/-! ### Auxiliary notions used in the statements -/

/-- The white-space characters of the C locale: space, `\t`, `\n`, `\v`, `\f`, `\r`. -/
def isSpaceChar (c : Char) : Bool :=
  c.toNat == 32 || (9 ≤ c.toNat && c.toNat ≤ 13)

/-- Canonical spelling: non-empty, without any white-space character. -/
def isCanonical (s : String) : Bool :=
  !s.data.isEmpty && s.data.all (fun c => !isSpaceChar c)

/-- The element types of the array convenience definitions. -/
def arrayElementTypes : List String :=
  ["sint8", "uint8", "sint16", "uint16", "sint32", "uint32", "sint64", "uint64", "id"]

/-- The remainder of `s` after the leading characters `p`, if `s` starts with `p`. -/
def stripLeading : List Char → List Char → Option (List Char)
  | [], s => some s
  | _ :: _, [] => none
  | a :: p, b :: s => if a = b then stripLeading p s else none

/-- The value of a string of decimal digits. -/
def decimalValue (digits : List Char) : Nat :=
  digits.foldl (fun acc c => 10 * acc + (c.toNat - 48)) 0

/-- The numbers `n` for which `p` followed by the decimal numeral of `n` can be an entry
of `table`: the values of the remainders of the entries that start with `p`. -/
def suffixValues (table : List String) (p : String) : List Nat :=
  (table.filterMap (fun e => stripLeading p.data e.data)).map decimalValue

/-- The text appended by one iteration of the loop at index `i`: the segment, followed by
the separator unless `i` is the value of `names.size() - 1`. -/
def loopPiece (names : List String) (i : Nat) : String :=
  names.getD i "" ++ (if i = sizeMinusOne names.length then "" else "::")

/-- The text appended by `cnt` consecutive iterations starting at index `k`. -/
def loopPieces (names : List String) (k : Nat) : Nat → String
  | 0 => ""
  | cnt + 1 => loopPiece names k ++ loopPieces names (k + 1) cnt

/-- The indices `k, k+1, ..., k+cnt-1` as `int` values. -/
def loopReads (k : Nat) : Nat → List Int
  | 0 => []
  | cnt + 1 => (k : Int) :: loopReads (k + 1) cnt

/-- The text that follows the first segment of a rendered path: every further segment
preceded by one separator. -/
def sepTail : List String → String
  | [] => ""
  | b :: rest => "::" ++ b ++ sepTail rest

/-- The qualifiers of a spelling: every `q` such that the spelling is `q`, then `::`, then
some remainder. One candidate for each position at which `::` occurs. -/
def qualifiersOf : List Char → List (List Char)
  | [] => []
  | c :: rest =>
    (match c, rest with
      | ':', ':' :: _ => [[]]
      | _, _ => []) ++ (qualifiersOf rest).map (fun q => c :: q)

/-- The part of `s` before the trailing characters `suffix`, if `s` ends with `suffix`. -/
def dropTrailing (suffix s : List Char) : Option (List Char) :=
  (stripLeading suffix.reverse s.reverse).map List.reverse

/-- The plain names of the entries of `table` that end with `suffix`. -/
def plainNames (table : List String) (suffix : String) : List String :=
  table.filterMap (fun e => (dropTrailing suffix.data e.data).map String.mk)

/-! ## Theorems -/

/-! ### The loop of `getScopedName` -/

theorem toSizeT_natCast (k : Nat) (hk : k < 18446744073709551616) : toSizeT (k : Int) = k := by
  unfold toSizeT
  omega

theorem toSizeT_neg_ge (s : Int) (hlo : -2147483648 ≤ s) (hneg : s < 0) :
    18446744071562067968 ≤ toSizeT s := by
  unfold toSizeT
  omega

theorem incInt_of_lt (s : Int) (h : s < 2147483647) : incInt s = some (s + 1) := by
  unfold incInt
  rw [if_pos h]

theorem incInt_max : incInt 2147483647 = none := by
  decide

theorem sizeMinusOne_pos (n : Nat) (h0 : 0 < n) (hn : n < 18446744073709551616) :
    sizeMinusOne n = n - 1 := by
  unfold sizeMinusOne
  omega

/-- When the guard `s < names.size()` is false the loop returns at once, whatever the fuel. -/
theorem getScopedNameLoop_exit (names : List String) (fuel : Nat) (s : Int) (result : String)
    (reads : List Int) (h : ¬ toSizeT s < names.length) :
    getScopedNameLoop names fuel s result reads = Except.ok (result, reads) := by
  rw [getScopedNameLoop.eq_def]
  simp only [if_neg h]

/-- A negative `int` is never below the size of a vector: the loop returns at once. -/
theorem getScopedNameLoop_neg (names : List String) (fuel : Nat) (s : Int) (result : String)
    (reads : List Int) (hn : names.length < 9223372036854775808)
    (hlo : -2147483648 ≤ s) (hneg : s < 0) :
    getScopedNameLoop names fuel s result reads = Except.ok (result, reads) := by
  apply getScopedNameLoop_exit
  have := toSizeT_neg_ge s hlo hneg
  omega

/-- One iteration of the loop when the guard holds, fuel is left and the counter is below
`2^31 - 1`. -/
theorem getScopedNameLoop_step (names : List String) (fuel : Nat) (k : Nat) (result : String)
    (reads : List Int) (hk : k < names.length) (hinc : k < 2147483647) :
    getScopedNameLoop names (fuel + 1) (k : Int) result reads =
      getScopedNameLoop names fuel ((k + 1 : Nat) : Int) (result ++ loopPiece names k)
        (reads ++ [(k : Int)]) := by
  have hsz : toSizeT (k : Int) = k := toSizeT_natCast k (by omega)
  have hget : names.getD k "" = names[k] := by
    rw [List.getD_eq_getElem?_getD, List.getElem?_eq_getElem hk]
    rfl
  have hcast : ((k + 1 : Nat) : Int) = (k : Int) + 1 := by omega
  have hnext : incInt (k : Int) = some ((k + 1 : Nat) : Int) := by
    rw [incInt_of_lt (k : Int) (by omega), hcast]
  rw [getScopedNameLoop, hsz, if_pos hk, List.getElem?_eq_getElem hk, hnext]
  unfold loopPiece
  rw [hget]
  by_cases hlast : k = sizeMinusOne names.length
  · simp only [hlast, ne_eq, not_true_eq_false, if_false, if_true, String.append_empty]
  · simp only [hlast, ne_eq, not_false_eq_true, if_false, if_true, String.append_assoc]

/-- The iteration at index `2^31 - 1`, when the vector is longer than that: the element is
read and `++s` overflows. -/
theorem getScopedNameLoop_step_overflow (names : List String) (fuel : Nat) (result : String)
    (reads : List Int) (hbig : 2147483647 < names.length) :
    getScopedNameLoop names (fuel + 1) 2147483647 result reads =
      Except.error Fault.signedOverflow := by
  have hsz : toSizeT 2147483647 = 2147483647 := by decide
  rw [getScopedNameLoop, hsz, if_pos hbig, List.getElem?_eq_getElem hbig, incInt_max]

/-- The loop on a vector of at most `2^31 - 1` elements, started at an index `k`: it
performs the `cnt` iterations up to the end of the vector, needs no more than `cnt` units
of fuel, and appends exactly the pieces for `k, ..., k + cnt - 1`. -/
theorem getScopedNameLoop_run (names : List String) (hn : names.length ≤ 2147483647) :
    ∀ (cnt k fuel : Nat) (result : String) (reads : List Int),
      k + cnt = names.length → cnt ≤ fuel →
      getScopedNameLoop names fuel (k : Int) result reads =
        Except.ok (result ++ loopPieces names k cnt, reads ++ loopReads k cnt) := by
  intro cnt
  induction cnt with
  | zero =>
    intro k fuel result reads hk _
    have hres : result ++ loopPieces names k 0 = result := String.append_empty result
    have hrd : reads ++ loopReads k 0 = reads := List.append_nil reads
    rw [hres, hrd]
    apply getScopedNameLoop_exit
    rw [toSizeT_natCast k (by omega)]
    omega
  | succ cnt ih =>
    intro k fuel result reads hk hfuel
    obtain ⟨fuel, rfl⟩ : ∃ f, fuel = f + 1 := ⟨fuel - 1, by omega⟩
    rw [getScopedNameLoop_step names fuel k result reads (by omega) (by omega),
      ih (k + 1) fuel _ _ (by omega) (by omega)]
    simp only [loopPieces, loopReads, String.append_assoc, List.append_assoc,
      List.singleton_append]

/-- The loop on a vector of more than `2^31 - 1` elements, started at a non-negative index
`k`: after `cnt` iterations the counter is `2^31 - 1`, and the next `++s` overflows. -/
theorem getScopedNameLoop_overflow (names : List String) (hbig : 2147483647 < names.length) :
    ∀ (cnt k fuel : Nat) (result : String) (reads : List Int),
      k + cnt = 2147483647 → cnt < fuel →
      getScopedNameLoop names fuel (k : Int) result reads =
        Except.error Fault.signedOverflow := by
  intro cnt
  induction cnt with
  | zero =>
    intro k fuel result reads hk hfuel
    obtain ⟨fuel, rfl⟩ : ∃ f, fuel = f + 1 := ⟨fuel - 1, by omega⟩
    have hk2 : k = 2147483647 := by omega
    subst hk2
    exact getScopedNameLoop_step_overflow names fuel result reads hbig
  | succ cnt ih =>
    intro k fuel result reads hk hfuel
    obtain ⟨fuel, rfl⟩ : ∃ f, fuel = f + 1 := ⟨fuel - 1, by omega⟩
    rw [getScopedNameLoop_step names fuel k result reads (by omega) (by omega)]
    exact ih (k + 1) fuel _ _ (by omega) (by omega)

theorem intercalate_go_eq (l : List String) :
    ∀ acc : String, String.intercalate.go acc "::" l = acc ++ sepTail l := by
  induction l with
  | nil => intro acc; simp [String.intercalate.go, sepTail]
  | cons b rest ih =>
    intro acc
    simp only [String.intercalate.go, ih, sepTail, String.append_assoc]

theorem intercalate_cons (a : String) (l : List String) :
    String.intercalate "::" (a :: l) = a ++ sepTail l := by
  simp only [String.intercalate, intercalate_go_eq]

theorem loopPieces_to_end (names : List String) (hn : names.length < 18446744073709551616) :
    ∀ (cnt k : Nat), k + (cnt + 1) = names.length →
      loopPieces names k (cnt + 1) = names.getD k "" ++ sepTail (names.drop (k + 1)) := by
  intro cnt
  induction cnt with
  | zero =>
    intro k hk
    have hlast : k = sizeMinusOne names.length := by
      rw [sizeMinusOne_pos names.length (by omega) hn]; omega
    have hdrop : names.drop (k + 1) = [] := List.drop_eq_nil_of_le (by omega)
    simp only [loopPieces, loopPiece, if_pos hlast, hdrop, sepTail, String.append_empty]
  | succ cnt ih =>
    intro k hk
    have hlast : ¬ k = sizeMinusOne names.length := by
      rw [sizeMinusOne_pos names.length (by omega) hn]; omega
    have hk1 : k + 1 < names.length := by omega
    have hdrop : names.drop (k + 1) = names.getD (k + 1) "" :: names.drop (k + 1 + 1) := by
      rw [List.getD_eq_getElem?_getD, List.getElem?_eq_getElem hk1]
      exact List.drop_eq_getElem_cons hk1
    have hstep : loopPieces names k (cnt + 1 + 1) =
        loopPiece names k ++ loopPieces names (k + 1) (cnt + 1) := rfl
    rw [hstep, ih (k + 1) (by omega), hdrop]
    simp only [loopPiece, if_neg hlast, sepTail, String.append_assoc]

/-- For a vector of fewer than `2^64` elements, the pieces appended from index `k` up to
the end are the segments from `k` on joined by the separator. -/
theorem loopPieces_eq_intercalate (names : List String)
    (hn : names.length < 18446744073709551616) (k : Nat) :
    loopPieces names k (names.length - k) = String.intercalate "::" (names.drop k) := by
  by_cases hk : k < names.length
  · obtain ⟨cnt, hcnt⟩ : ∃ c, names.length - k = c + 1 := ⟨names.length - k - 1, by omega⟩
    have hdrop : names.drop k = names.getD k "" :: names.drop (k + 1) := by
      rw [List.getD_eq_getElem?_getD, List.getElem?_eq_getElem hk]
      exact List.drop_eq_getElem_cons hk
    rw [hcnt, loopPieces_to_end names hn cnt k (by omega), hdrop, intercalate_cons]
  · have h0 : names.length - k = 0 := by omega
    have hdrop : names.drop k = [] := List.drop_eq_nil_of_le (by omega)
    rw [h0, hdrop]
    rfl

/-- The whole loop on a vector of at most `2^31 - 1` elements, from a non-negative start
index `k` (an `int`, so below `2^31`), for any fuel of at least `names.size()`. -/
theorem getScopedNameLoop_from (names : List String)
    (hn : names.length ≤ 2147483647) (k : Nat) (hk : k < 2147483648)
    (fuel : Nat) (hfuel : names.length ≤ fuel) :
    getScopedNameLoop names fuel (k : Int) "" [] =
      Except.ok (loopPieces names k (names.length - k), loopReads k (names.length - k)) := by
  by_cases hle : k ≤ names.length
  · rw [getScopedNameLoop_run names hn (names.length - k) k fuel "" [] (by omega) (by omega),
      String.empty_append, List.nil_append]
  · have h0 : names.length - k = 0 := by omega
    rw [h0]
    apply getScopedNameLoop_exit
    rw [toSizeT_natCast k (by omega)]
    omega

/-- Where the source has no defined behaviour: on a vector of more than `2^31 - 1` elements
and a non-negative start index, the loop reaches `++s` with `s = 2^31 - 1`. -/
theorem getScopedName_overflow (names : List String) (k : Nat)
    (hbig : 2147483647 < names.length) (hk : k ≤ 2147483647) :
    getScopedName names (k : Int) = Except.error Fault.signedOverflow := by
  unfold getScopedName getScopedNameRun
  rw [getScopedNameLoop_overflow names hbig (2147483647 - k) k names.length "" []
    (by omega) (by omega)]
  rfl

/-! ### Auxiliary lemmas -/

theorem getScopedName_of_run (names : List String) (startIndex : Int) (result : String)
    (reads : List Int) (h : getScopedNameRun names startIndex = Except.ok (result, reads)) :
    getScopedName names startIndex = Except.ok result := by
  unfold getScopedName
  rw [h]
  rfl

set_option maxRecDepth 100000 in
theorem tables_canonical :
    ∀ e ∈ knownMacroNames ++ allowedScopePrefixes ++ allowedInputOutputTypes,
      isCanonical e = true := by
  decide

theorem digitChar_value : ∀ m, m < 10 → (Nat.digitChar m).toNat - 48 = m := by
  decide

theorem foldl_toDigitsCore (fuel : Nat) : ∀ (n : Nat) (ds : List Char), n < fuel →
    List.foldl (fun acc c => 10 * acc + (c.toNat - 48)) 0 (Nat.toDigitsCore 10 fuel n ds) =
      List.foldl (fun acc c => 10 * acc + (c.toNat - 48)) n ds := by
  induction fuel with
  | zero => intro n ds h; omega
  | succ fuel ih =>
    intro n ds hn
    have hd := digitChar_value (n % 10) (Nat.mod_lt n (by decide))
    unfold Nat.toDigitsCore
    by_cases hq : n / 10 = 0
    · simp only [hq, if_true, List.foldl_cons, hd]
      congr 1
      omega
    · simp only [hq, if_false]
      rw [ih (n / 10) _ (by omega)]
      simp only [List.foldl_cons, hd]
      congr 1
      omega

/-- Reading back the decimal numeral of `n` gives `n`. -/
theorem decimalValue_toString (n : Nat) : decimalValue (toString n).data = n := by
  have h := foldl_toDigitsCore (n + 1) n [] (by omega)
  simpa [decimalValue, Nat.toDigits] using h

theorem stripLeading_append (p r : List Char) : stripLeading p (p ++ r) = some r := by
  induction p with
  | nil => rfl
  | cons a p ih => simp [stripLeading, ih]

/-- If `p` followed by the numeral of `n` is an entry of `table`, then `n` is one of the
suffix values of `table` for `p`. -/
theorem mem_suffixValues (table : List String) (p : String) (n : Nat)
    (h : p ++ toString n ∈ table) : n ∈ suffixValues table p := by
  unfold suffixValues
  rw [List.mem_map]
  refine ⟨(toString n).data, ?_, decimalValue_toString n⟩
  rw [List.mem_filterMap]
  refine ⟨p ++ toString n, h, ?_⟩
  rw [String.data_append]
  exact stripLeading_append p.data (toString n).data

theorem runEvents_append (first second : List ScopeEvent) :
    ∀ d : AnalysisData,
      runEvents (first ++ second) d = (runEvents first d).bind (runEvents second) := by
  induction first with
  | nil => intro d; rfl
  | cons e rest ih =>
    intro d
    cases e with
    | enter kind => exact ih (d.enter kind)
    | exit =>
      simp only [List.cons_append, runEvents]
      cases d.exit with
      | none => rfl
      | some d1 => exact ih d1

theorem exit_enter (d : AnalysisData) (kind : ScopeSpec) : (d.enter kind).exit = some d := by
  cases d
  rfl

/-- A properly nested sequence runs to the end and restores the state it started from. -/
theorem runEvents_wellNested (es : List ScopeEvent) (h : WellNested es) :
    ∀ d : AnalysisData, runEvents es d = some d := by
  induction h with
  | nil => intro d; rfl
  | wrap kind inner _ ih =>
    intro d
    have hstep : runEvents (ScopeEvent.enter kind :: inner ++ [ScopeEvent.exit]) d =
        runEvents (inner ++ [ScopeEvent.exit]) (d.enter kind) := rfl
    rw [hstep, runEvents_append, ih (d.enter kind)]
    simp only [Option.bind, runEvents, exit_enter]
  | append first second _ _ ih1 ih2 =>
    intro d
    rw [runEvents_append, ih1 d]
    exact ih2 d

/-- In a run that reaches the end, no `exit` is applied to an empty stack. -/
theorem runEvents_some_no_empty_exit (before after : List ScopeEvent) (d d1 d2 : AnalysisData)
    (hrun : runEvents (before ++ ScopeEvent.exit :: after) d = some d2)
    (hbefore : runEvents before d = some d1) : d1.scopeStack ≠ [] := by
  rw [runEvents_append, hbefore] at hrun
  intro hempty
  simp [Option.bind, runEvents, AnalysisData.exit, hempty] at hrun

/-- A run fails only at an `exit` that finds the stack empty. -/
theorem runEvents_none_empty_exit (es : List ScopeEvent) :
    ∀ d : AnalysisData, runEvents es d = none →
      ∃ before after d1, es = before ++ ScopeEvent.exit :: after ∧
        runEvents before d = some d1 ∧ d1.scopeStack = [] := by
  induction es with
  | nil => intro d h; simp [runEvents] at h
  | cons e rest ih =>
    intro d h
    cases e with
    | enter kind =>
      obtain ⟨before, after, d1, hes, hrun, hempty⟩ := ih (d.enter kind) h
      exact ⟨ScopeEvent.enter kind :: before, after, d1, by rw [hes]; rfl, hrun, hempty⟩
    | exit =>
      cases hex : d.exit with
      | none =>
        refine ⟨[], rest, d, rfl, rfl, ?_⟩
        unfold AnalysisData.exit at hex
        cases hs : d.scopeStack with
        | nil => rfl
        | cons top below => rw [hs] at hex; simp at hex
      | some d1 =>
        have h1 : runEvents rest d1 = none := by
          simpa only [runEvents, hex] using h
        obtain ⟨before, after, d2, hes, hrun, hempty⟩ := ih d1 h1
        refine ⟨ScopeEvent.exit :: before, after, d2, by rw [hes]; rfl, ?_, hempty⟩
        simpa only [runEvents, hex] using hrun

/-- A run fails as soon as a prefix has more exits than the stack depth plus its enters. -/
theorem runEvents_excess_exits (es : List ScopeEvent) :
    ∀ (d : AnalysisData) (p : List ScopeEvent), List.IsPrefix p es →
      d.scopeStack.length + countEnters p < countExits p → runEvents es d = none := by
  induction es with
  | nil =>
    intro d p hp hcount
    rw [List.prefix_nil] at hp
    subst hp
    simp [countExits] at hcount
  | cons e rest ih =>
    intro d p hp hcount
    cases p with
    | nil => simp [countExits] at hcount
    | cons e1 p1 =>
      obtain ⟨he, hp1⟩ := List.cons_prefix_cons.mp hp
      subst he
      cases e1 with
      | enter kind =>
        apply ih (d.enter kind) p1 hp1
        simp only [countEnters, countExits, List.countP_cons, AnalysisData.enter,
          List.length_cons] at hcount ⊢
        simp at hcount
        omega
      | exit =>
        cases hs : d.scopeStack with
        | nil => simp [runEvents, AnalysisData.exit, hs]
        | cons top below =>
          have hex : d.exit = some { d with scopeStack := below } := by
            simp [AnalysisData.exit, hs]
          simp only [runEvents, hex]
          apply ih _ p1 hp1
          simp only [countEnters, countExits, List.countP_cons, hs, List.length_cons]
            at hcount ⊢
          simp at hcount
          omega

/-- Within the range of the `int` counter, `getScopedName` from a non-negative index `k`
returns the segments from `k` on joined by the separator. -/
theorem getScopedName_natCast (names : List String) (k : Nat)
    (hsize : names.length ≤ 2147483647) (hk : k < 2147483648) :
    getScopedName names (k : Int) = Except.ok (String.intercalate "::" (names.drop k)) := by
  have hrun := getScopedNameLoop_from names (by omega) k hk names.length (le_refl _)
  rw [loopPieces_eq_intercalate names (by omega) k] at hrun
  exact getScopedName_of_run names (k : Int) _ _ hrun

theorem sepTail_append (a b : List String) : sepTail (a ++ b) = sepTail a ++ sepTail b := by
  induction a with
  | nil => simp [sepTail]
  | cons x rest ih =>
    have hstep : sepTail (x :: rest ++ b) = "::" ++ x ++ sepTail (rest ++ b) := rfl
    rw [hstep, ih]
    simp only [sepTail, String.append_assoc]

/-- Joining a concatenation of two non-empty paths. -/
theorem intercalate_append (a b : List String) (ha : a ≠ []) (hb : b ≠ []) :
    String.intercalate "::" (a ++ b) =
      String.intercalate "::" a ++ "::" ++ String.intercalate "::" b := by
  obtain ⟨x, a1, rfl⟩ := List.exists_cons_of_ne_nil ha
  obtain ⟨y, b1, rfl⟩ := List.exists_cons_of_ne_nil hb
  rw [List.cons_append, intercalate_cons, intercalate_cons, intercalate_cons, sepTail_append]
  simp only [sepTail, String.append_assoc]

theorem mem_qualifiersOf (q : List Char) : ∀ (t e : List Char),
    q ++ ':' :: ':' :: t = e → q ∈ qualifiersOf e := by
  induction q with
  | nil =>
    intro t e h
    subst h
    simp [qualifiersOf]
  | cons c q1 ih =>
    intro t e h
    subst h
    have hin := ih t _ rfl
    simp only [List.cons_append, qualifiersOf, List.mem_append, List.mem_map]
    exact Or.inr ⟨q1, hin, rfl⟩

theorem dropTrailing_append (m suffix : List Char) :
    dropTrailing suffix (m ++ suffix) = some m := by
  unfold dropTrailing
  rw [List.reverse_append, stripLeading_append]
  simp

/-- If `m` followed by `suffix` is an entry of `table`, then `m` is one of the plain names
of `table` for `suffix`. -/
theorem mem_plainNames (table : List String) (suffix m : String)
    (h : m ++ suffix ∈ table) : m ∈ plainNames table suffix := by
  unfold plainNames
  rw [List.mem_filterMap]
  refine ⟨m ++ suffix, h, ?_⟩
  rw [String.data_append, dropTrailing_append]
  rfl

/-! ### The claims -/

/-- Claim C1: `isDirectlyInClassOrStruct` is true exactly when the scope stack is non-empty
and its top is `STRUCT` or `CLASS`; it is false for the empty stack and for every stack
whose top is `NAMESPACE`, `BLOCK`, `TEMPL_SPEC`, `FUNC_SIG` or `TYPEDEF`, whatever lies
below the top. -/
theorem isDirectlyInClassOrStruct_iff (d : AnalysisData) :
    (d.isDirectlyInClassOrStruct = true ↔
      ∃ top below, d.scopeStack = top :: below ∧
        (top = ScopeSpec.STRUCT ∨ top = ScopeSpec.CLASS)) ∧
    (d.scopeStack = [] → d.isDirectlyInClassOrStruct = false) ∧
    (∀ top below, d.scopeStack = top :: below →
      (top = ScopeSpec.NAMESPACE ∨ top = ScopeSpec.BLOCK ∨ top = ScopeSpec.TEMPL_SPEC ∨
        top = ScopeSpec.FUNC_SIG ∨ top = ScopeSpec.TYPEDEF) →
      d.isDirectlyInClassOrStruct = false) := by
  unfold AnalysisData.isDirectlyInClassOrStruct
  refine ⟨?_, ?_, ?_⟩
  · cases hs : d.scopeStack with
    | nil => simp
    | cons top below => cases top <;> simp
  · intro hs
    rw [hs]
  · intro top below hs htop
    rw [hs]
    rcases htop with h | h | h | h | h <;> subst h <;> rfl

/-- Witness for claim C1: a `BLOCK` opened inside a `STRUCT` is not directly in a struct,
and a `CLASS` opened inside a `NAMESPACE` is directly in a class. -/
theorem isDirectlyInClassOrStruct_iff_witness :
    AnalysisData.isDirectlyInClassOrStruct
        { AnalysisData.initial with scopeStack := [ScopeSpec.BLOCK, ScopeSpec.STRUCT] } = false ∧
      AnalysisData.isDirectlyInClassOrStruct
        { AnalysisData.initial with scopeStack := [ScopeSpec.CLASS, ScopeSpec.NAMESPACE] } = true :=
  ⟨(isDirectlyInClassOrStruct_iff
      { AnalysisData.initial with scopeStack := [ScopeSpec.BLOCK, ScopeSpec.STRUCT] }).2.2
      ScopeSpec.BLOCK [ScopeSpec.STRUCT] rfl (Or.inr (Or.inl rfl)),
    (isDirectlyInClassOrStruct_iff
      { AnalysisData.initial with scopeStack := [ScopeSpec.CLASS, ScopeSpec.NAMESPACE] }).1.mpr
      ⟨ScopeSpec.CLASS, [ScopeSpec.NAMESPACE], rfl, Or.inr rfl⟩⟩

/-- Claim C2: for every list of segments on which no `++s` overflows, that is of at most
`2^31 - 1` segments (the largest `int`), and every `int` start index `startIndex ≥ 0`,
`getScopedName` returns the segments at positions `startIndex..end` joined by exactly one
`"::"` between consecutive segments, with no leading or trailing separator; the result is
empty when `startIndex ≥ names.size()`, and start index 0 renders the whole path. On a
longer list the source executes `++s` at `2^31 - 1` and has no defined behaviour
(`getScopedName_overflow`), so nothing is stated there. -/
theorem getScopedName_eq_intercalate (names : List String) (startIndex : Int)
    (hsize : names.length ≤ 2147483647) (hlo : 0 ≤ startIndex)
    (hhi : startIndex ≤ 2147483647) :
    getScopedName names startIndex =
        Except.ok (String.intercalate "::" (names.drop startIndex.toNat)) ∧
      ((names.length : Int) ≤ startIndex → getScopedName names startIndex = Except.ok "") ∧
      getScopedName names 0 = Except.ok (String.intercalate "::" names) := by
  have key : ∀ k : Nat, k < 2147483648 →
      getScopedName names (k : Int) = Except.ok (String.intercalate "::" (names.drop k)) := by
    intro k hk
    have hrun := getScopedNameLoop_from names (by omega) k hk names.length (le_refl _)
    rw [loopPieces_eq_intercalate names (by omega) k] at hrun
    exact getScopedName_of_run names (k : Int) _ _ hrun
  obtain ⟨k, rfl⟩ : ∃ k : Nat, startIndex = (k : Int) := ⟨startIndex.toNat, by omega⟩
  refine ⟨?_, ?_, ?_⟩
  · rw [Int.toNat_ofNat]
    exact key k (by omega)
  · intro hge
    rw [key k (by omega), List.drop_eq_nil_of_le (by omega)]
    rfl
  · have h0 := key 0 (by omega)
    rw [List.drop_zero] at h0
    exact h0

/-- Witness for claim C2: the path `A::B::C` rendered from index 1 and from index 0. -/
theorem getScopedName_eq_intercalate_witness :
    getScopedName ["A", "B", "C"] 1 = Except.ok "B::C" ∧
      getScopedName ["A", "B", "C"] 0 = Except.ok "A::B::C" :=
  ⟨(getScopedName_eq_intercalate ["A", "B", "C"] 1 (by decide) (by decide) (by decide)).1,
    (getScopedName_eq_intercalate ["A", "B", "C"] 1 (by decide) (by decide) (by decide)).2.2⟩

/-- Claim C3: whatever the per-run `additionalScopePrefixes`, the qualifier `QX` is accepted
(it is in the base table), and `UNKNOWNCONTRACT` is accepted exactly when it occurs in
`additionalScopePrefixes` (it is not in the base table); with no additions `QX` passes and
`UNKNOWNCONTRACT` does not. -/
theorem scopePrefix_QX_and_UNKNOWNCONTRACT (d : AnalysisData) :
    "QX" ∈ allowedScopePrefixes ∧ "UNKNOWNCONTRACT" ∉ allowedScopePrefixes ∧
      isAllowedScopePrefix d "QX" = true ∧
      (isAllowedScopePrefix d "UNKNOWNCONTRACT" = true ↔
        "UNKNOWNCONTRACT" ∈ d.additionalScopePrefixes) ∧
      (d.additionalScopePrefixes = [] →
        isAllowedScopePrefix d "QX" = true ∧
          isAllowedScopePrefix d "UNKNOWNCONTRACT" = false) := by
  have hqx : "QX" ∈ allowedScopePrefixes := by decide
  have hun : "UNKNOWNCONTRACT" ∉ allowedScopePrefixes := by decide
  refine ⟨hqx, hun, ?_, ?_, ?_⟩
  · simp [isAllowedScopePrefix, hqx]
  · simp [isAllowedScopePrefix, hun]
  · intro hnone
    simp [isAllowedScopePrefix, hqx, hun, hnone]

/-- Witness for claim C3: a run with no additional prefixes. -/
theorem scopePrefix_QX_and_UNKNOWNCONTRACT_witness :
    isAllowedScopePrefix AnalysisData.initial "QX" = true ∧
      isAllowedScopePrefix AnalysisData.initial "UNKNOWNCONTRACT" = false :=
  (scopePrefix_QX_and_UNKNOWNCONTRACT AnalysisData.initial).2.2.2.2 rfl

/-- Claim C4: `id` and `uint8` are entries of `allowedInputOutputTypes` and `MyCustomType`
is not; so the IO-eligibility flag stays `true` over the fields of
`struct Foo { id a; uint8 b; }`, and becomes `false` over those of
`struct Bar { id a; MyCustomType c; }`, where `c` is the only offending field. -/
theorem ioFlag_Foo_and_Bar :
    "id" ∈ allowedInputOutputTypes ∧ "uint8" ∈ allowedInputOutputTypes ∧
      "MyCustomType" ∉ allowedInputOutputTypes ∧
      ioFlagAfterFields [⟨"id", "a"⟩, ⟨"uint8", "b"⟩] = some true ∧
      offendingFields [⟨"id", "a"⟩, ⟨"uint8", "b"⟩] = [] ∧
      ioFlagAfterFields [⟨"id", "a"⟩, ⟨"MyCustomType", "c"⟩] = some false ∧
      offendingFields [⟨"id", "a"⟩, ⟨"MyCustomType", "c"⟩] = [⟨"MyCustomType", "c"⟩] := by
  refine ⟨?_, ?_, ?_, ?_, ?_, ?_, ?_⟩ <;> decide

/-- Claim C5: every entry of `knownMacroNames`, `allowedScopePrefixes` and
`allowedInputOutputTypes` is a non-empty string without a white-space character; hence a
string that is empty or contains white space is in none of the three tables, in particular
the empty string, `ProposalDataV1< true >` and `uint8` followed by a space. -/
theorem tables_entries_canonical :
    (∀ e, e ∈ knownMacroNames ∨ e ∈ allowedScopePrefixes ∨ e ∈ allowedInputOutputTypes →
      e ≠ "" ∧ ∀ c ∈ e.data, isSpaceChar c = false) ∧
    (∀ s : String, (s = "" ∨ ∃ c ∈ s.data, isSpaceChar c = true) →
      s ∉ knownMacroNames ∧ s ∉ allowedScopePrefixes ∧ s ∉ allowedInputOutputTypes) ∧
    ("" ∉ knownMacroNames ∧ "" ∉ allowedScopePrefixes ∧ "" ∉ allowedInputOutputTypes) ∧
    ("ProposalDataV1< true >" ∉ knownMacroNames ∧
      "ProposalDataV1< true >" ∉ allowedScopePrefixes ∧
      "ProposalDataV1< true >" ∉ allowedInputOutputTypes) ∧
    ("uint8 " ∉ knownMacroNames ∧ "uint8 " ∉ allowedScopePrefixes ∧
      "uint8 " ∉ allowedInputOutputTypes) ∧
    "ProposalDataV1<true>" ∈ allowedInputOutputTypes ∧
    "uint8" ∈ allowedInputOutputTypes := by
  have hcanon : ∀ e, e ∈ knownMacroNames ∨ e ∈ allowedScopePrefixes ∨
      e ∈ allowedInputOutputTypes → e ≠ "" ∧ ∀ c ∈ e.data, isSpaceChar c = false := by
    intro e he
    have hmem : e ∈ knownMacroNames ++ allowedScopePrefixes ++ allowedInputOutputTypes := by
      simp only [List.mem_append]
      tauto
    have hc := tables_canonical e hmem
    unfold isCanonical at hc
    simp only [Bool.and_eq_true, Bool.not_eq_true', List.all_eq_true] at hc
    refine ⟨?_, hc.2⟩
    intro hempty
    rw [hempty] at hc
    exact absurd hc.1 (by decide)
  have hnot : ∀ s : String, (s = "" ∨ ∃ c ∈ s.data, isSpaceChar c = true) →
      s ∉ knownMacroNames ∧ s ∉ allowedScopePrefixes ∧ s ∉ allowedInputOutputTypes := by
    intro s hs
    have hno : ¬ (s ∈ knownMacroNames ∨ s ∈ allowedScopePrefixes ∨
        s ∈ allowedInputOutputTypes) := by
      intro hmem
      obtain ⟨hne, hsp⟩ := hcanon s hmem
      rcases hs with h | ⟨c, hc, hcs⟩
      · exact hne h
      · rw [hsp c hc] at hcs
        exact Bool.false_ne_true hcs
    tauto
  refine ⟨hcanon, hnot, hnot "" (Or.inl rfl), ?_, ?_, by decide, by decide⟩
  · exact hnot "ProposalDataV1< true >" (Or.inr ⟨' ', by decide, by decide⟩)
  · exact hnot "uint8 " (Or.inr ⟨' ', by decide, by decide⟩)

/-- Witness for claim C5: the entry `PUBLIC_FUNCTION_WITH_LOCALS` is non-empty, and the
spelling `uint8` followed by a space is in no table. -/
theorem tables_entries_canonical_witness :
    "PUBLIC_FUNCTION_WITH_LOCALS" ≠ "" ∧ "uint8 " ∉ allowedInputOutputTypes :=
  ⟨(tables_entries_canonical.1 "PUBLIC_FUNCTION_WITH_LOCALS" (Or.inl (by decide))).1,
    (tables_entries_canonical.2.1 "uint8 " (Or.inr ⟨' ', by decide, by decide⟩)).2.2⟩

/-- Claim C6: for each element type `T` among `sint8`, `uint8`, `sint16`, `uint16`,
`sint32`, `uint32`, `sint64`, `uint64`, `id` and every natural number `n` (written in
decimal), `T_n` is an entry of `allowedInputOutputTypes` exactly when `n` is 2, 4 or 8; and
`bit_n` is an entry exactly when `n = 2^k` with `1 ≤ k ≤ 12`. -/
theorem alias_enumeration :
    (∀ T ∈ arrayElementTypes, ∀ n : Nat,
      (T ++ "_" ++ toString n ∈ allowedInputOutputTypes ↔ n = 2 ∨ n = 4 ∨ n = 8)) ∧
    (∀ n : Nat, ("bit_" ++ toString n ∈ allowedInputOutputTypes ↔
      ∃ k, 1 ≤ k ∧ k ≤ 12 ∧ n = 2 ^ k)) := by
  constructor
  · intro T hT n
    have hvals : suffixValues allowedInputOutputTypes (T ++ "_") = [2, 4, 8] := by
      revert T
      decide
    constructor
    · intro hmem
      have h := mem_suffixValues allowedInputOutputTypes (T ++ "_") n hmem
      rw [hvals] at h
      simpa using h
    · intro hn
      have hall : ∀ T ∈ arrayElementTypes, ∀ m ∈ [2, 4, 8],
          T ++ "_" ++ toString m ∈ allowedInputOutputTypes := by
        decide
      exact hall T hT n (by simpa using hn)
  · intro n
    have hvals : suffixValues allowedInputOutputTypes "bit_" =
        (List.range' 1 12).map (fun k => 2 ^ k) := by
      decide
    constructor
    · intro hmem
      have h := mem_suffixValues allowedInputOutputTypes "bit_" n hmem
      rw [hvals, List.mem_map] at h
      obtain ⟨k, hk, hkn⟩ := h
      rw [List.mem_range'_1] at hk
      exact ⟨k, hk.1, by omega, hkn.symm⟩
    · rintro ⟨k, hk1, hk12, rfl⟩
      have hall : ∀ j ∈ List.range' 1 12,
          "bit_" ++ toString (2 ^ j) ∈ allowedInputOutputTypes := by
        decide
      exact hall k (by rw [List.mem_range'_1]; omega)

/-- Witness for claim C6: `uint16_4` is an entry and `uint16_16` is not. -/
theorem alias_enumeration_witness :
    "uint16_4" ∈ allowedInputOutputTypes ∧ "uint16_16" ∉ allowedInputOutputTypes :=
  ⟨(alias_enumeration.1 "uint16" (by decide) 4).2 (Or.inr (Or.inl rfl)),
    fun h => absurd ((alias_enumeration.1 "uint16" (by decide) 16).1 h) (by decide)⟩

/-- Claim C7: each of the three base tables lists every string at most once, so membership
in the table is membership in the set of its entries and the length of the table is the
number of distinct entries. -/
theorem tables_nodup :
    (knownMacroNames.Nodup ∧ allowedScopePrefixes.Nodup ∧ allowedInputOutputTypes.Nodup) ∧
    (knownMacroNames.toFinset.card = knownMacroNames.length ∧
      allowedScopePrefixes.toFinset.card = allowedScopePrefixes.length ∧
      allowedInputOutputTypes.toFinset.card = allowedInputOutputTypes.length) ∧
    (∀ s : String, (s ∈ knownMacroNames.toFinset ↔ s ∈ knownMacroNames) ∧
      (s ∈ allowedScopePrefixes.toFinset ↔ s ∈ allowedScopePrefixes) ∧
      (s ∈ allowedInputOutputTypes.toFinset ↔ s ∈ allowedInputOutputTypes)) ∧
    (∀ s : String, knownMacroNames.count s ≤ 1 ∧ allowedScopePrefixes.count s ≤ 1 ∧
      allowedInputOutputTypes.count s ≤ 1) := by
  have h1 : knownMacroNames.Nodup := by decide
  have h2 : allowedScopePrefixes.Nodup := by decide
  have h3 : allowedInputOutputTypes.Nodup := by decide
  refine ⟨⟨h1, h2, h3⟩, ⟨List.toFinset_card_of_nodup h1, List.toFinset_card_of_nodup h2,
    List.toFinset_card_of_nodup h3⟩, ?_, ?_⟩
  · intro s
    exact ⟨List.mem_toFinset, List.mem_toFinset, List.mem_toFinset⟩
  · intro s
    exact ⟨List.nodup_iff_count_le_one.mp h1 s, List.nodup_iff_count_le_one.mp h2 s,
      List.nodup_iff_count_le_one.mp h3 s⟩

/-- Claim C8: from the empty scope stack, a properly nested sequence of `enter`/`exit`
events never applies `exit` to an empty stack and leaves the stack empty after its last
event; a sequence with a prefix holding more exits than enters fails, at an `exit` that
finds the stack empty. -/
theorem scopeStack_balance (d : AnalysisData) (hempty : d.scopeStack = [])
    (es : List ScopeEvent) :
    (WellNested es →
      (∃ d2, runEvents es d = some d2 ∧ d2.scopeStack = []) ∧
        ∀ before after d1, es = before ++ ScopeEvent.exit :: after →
          runEvents before d = some d1 → d1.scopeStack ≠ []) ∧
    ((∃ p, List.IsPrefix p es ∧ countEnters p < countExits p) →
      runEvents es d = none ∧
        ∃ before after d1, es = before ++ ScopeEvent.exit :: after ∧
          runEvents before d = some d1 ∧ d1.scopeStack = []) := by
  constructor
  · intro hwn
    have hrun := runEvents_wellNested es hwn d
    refine ⟨⟨d, hrun, hempty⟩, ?_⟩
    intro before after d1 hes hbefore
    rw [hes] at hrun
    exact runEvents_some_no_empty_exit before after d d1 d hrun hbefore
  · rintro ⟨p, hp, hcount⟩
    have hnone := runEvents_excess_exits es d p hp (by rw [hempty]; simpa using hcount)
    exact ⟨hnone, runEvents_none_empty_exit es d hnone⟩

/-- Witness for claim C8: `struct { block }` is balanced, and `enter, exit, exit` fails. -/
theorem scopeStack_balance_witness :
    (∃ d2, runEvents [ScopeEvent.enter ScopeSpec.STRUCT, ScopeEvent.enter ScopeSpec.BLOCK,
        ScopeEvent.exit, ScopeEvent.exit] AnalysisData.initial = some d2 ∧
      d2.scopeStack = []) ∧
    runEvents [ScopeEvent.enter ScopeSpec.STRUCT, ScopeEvent.exit, ScopeEvent.exit]
      AnalysisData.initial = none :=
  ⟨((scopeStack_balance AnalysisData.initial rfl
      [ScopeEvent.enter ScopeSpec.STRUCT, ScopeEvent.enter ScopeSpec.BLOCK,
        ScopeEvent.exit, ScopeEvent.exit]).1
      (WellNested.wrap ScopeSpec.STRUCT [ScopeEvent.enter ScopeSpec.BLOCK, ScopeEvent.exit]
        (WellNested.wrap ScopeSpec.BLOCK [] WellNested.nil))).1,
    ((scopeStack_balance AnalysisData.initial rfl
      [ScopeEvent.enter ScopeSpec.STRUCT, ScopeEvent.exit, ScopeEvent.exit]).2
      ⟨[ScopeEvent.enter ScopeSpec.STRUCT, ScopeEvent.exit, ScopeEvent.exit],
        List.prefix_refl _, by decide⟩).1⟩

/-- Claim C9: on a stack with a top flag, `setIOFlagFalse` yields the same stack with top
`false`; applying it twice gives the same result as applying it once; a `false` top stays
`false`; the flags below the top and all other data are unchanged. -/
theorem setIOFlagFalse_idempotent (d : AnalysisData) (top : Bool) (below : List Bool)
    (hstack : d.allowedAsIOStruct = top :: below) :
    d.setIOFlagFalse = some { d with allowedAsIOStruct := false :: below } ∧
      d.setIOFlagFalse.bind AnalysisData.setIOFlagFalse = d.setIOFlagFalse ∧
      (∀ d1, d.setIOFlagFalse = some d1 →
        d1.allowedAsIOStruct.head? = some false ∧ d1.allowedAsIOStruct.tail = below ∧
          (top = false → d1.allowedAsIOStruct = d.allowedAsIOStruct) ∧
          d1.scopeStack = d.scopeStack ∧ d1.scopeNames = d.scopeNames ∧
          d1.additionalScopePrefixes = d.additionalScopePrefixes ∧
          d1.additionalInputOutputTypes = d.additionalInputOutputTypes) := by
  have hset : d.setIOFlagFalse = some { d with allowedAsIOStruct := false :: below } := by
    simp [AnalysisData.setIOFlagFalse, hstack]
  refine ⟨hset, ?_, ?_⟩
  · rw [hset]
    simp [AnalysisData.setIOFlagFalse]
  · intro d1 hd1
    rw [hset] at hd1
    have heq := Option.some.inj hd1
    subst heq
    refine ⟨rfl, rfl, ?_, rfl, rfl, rfl, rfl⟩
    intro htop
    rw [hstack, htop]

/-- Witness for claim C9: an inner struct still eligible inside an outer eligible one. -/
theorem setIOFlagFalse_idempotent_witness :
    AnalysisData.setIOFlagFalse { AnalysisData.initial with allowedAsIOStruct := [true, true] } =
        some { AnalysisData.initial with allowedAsIOStruct := [false, true] } ∧
      (AnalysisData.setIOFlagFalse
          { AnalysisData.initial with allowedAsIOStruct := [true, true] }).bind
          AnalysisData.setIOFlagFalse =
        AnalysisData.setIOFlagFalse
          { AnalysisData.initial with allowedAsIOStruct := [true, true] } :=
  ⟨(setIOFlagFalse_idempotent { AnalysisData.initial with allowedAsIOStruct := [true, true] }
      true [true] rfl).1,
    (setIOFlagFalse_idempotent { AnalysisData.initial with allowedAsIOStruct := [true, true] }
      true [true] rfl).2.1⟩

/-- Claim C11: for every vector `names` of fewer than `2^63` elements and every negative
`int` start index, `getScopedName` returns the empty string: converted to `size_t` the
index is its value plus `2^64`, which is not below `names.size()`, so the loop body is not
entered and no element is read, whatever the fuel. -/
theorem getScopedName_negative_start (names : List String) (startIndex : Int)
    (hsize : names.length < 9223372036854775808) (hlo : -2147483648 ≤ startIndex)
    (hneg : startIndex < 0) :
    getScopedName names startIndex = Except.ok "" ∧
      getScopedNameRun names startIndex = Except.ok ("", []) ∧
      (∀ fuel, getScopedNameLoop names fuel startIndex "" [] = Except.ok ("", [])) ∧
      (toSizeT startIndex : Int) = startIndex + 18446744073709551616 ∧
      ¬ toSizeT startIndex < names.length := by
  have hall : ∀ fuel, getScopedNameLoop names fuel startIndex "" [] = Except.ok ("", []) :=
    fun fuel => getScopedNameLoop_neg names fuel startIndex "" [] hsize hlo hneg
  have hge := toSizeT_neg_ge startIndex hlo hneg
  refine ⟨getScopedName_of_run names startIndex "" [] (hall _), hall _, hall, ?_, by omega⟩
  unfold toSizeT
  omega

/-- Witness for claim C11: the path `A::B` with start index `-1`. -/
theorem getScopedName_negative_start_witness :
    getScopedName ["A", "B"] (-1) = Except.ok "" ∧
      getScopedNameRun ["A", "B"] (-1) = Except.ok ("", []) :=
  ⟨(getScopedName_negative_start ["A", "B"] (-1) (by decide) (by decide) (by decide)).1,
    (getScopedName_negative_start ["A", "B"] (-1) (by decide) (by decide) (by decide)).2.1⟩

/-- Claim C12: on paths on which no `++s` overflows, that is of at most `2^31 - 1`
segments, `getScopedName` composes over concatenation and suffixes. For all non-empty
segment lists `a` and `b` whose concatenation has at most `2^31 - 1` segments,
`getScopedName(a ++ b, 0)` is `getScopedName(a, 0)`, then `"::"`, then
`getScopedName(b, 0)`; and for every list `names` of at most `2^31 - 1` segments and every
`k` with `0 ≤ k ≤ names.size()`, `getScopedName(names, k)` is `getScopedName` of `names`
without its first `k` segments, from index 0. On a longer path the source executes `++s`
at `2^31 - 1` and has no defined behaviour (`getScopedName_overflow`). -/
theorem getScopedName_append_and_drop :
    (∀ a b : List String, a ≠ [] → b ≠ [] → (a ++ b).length ≤ 2147483647 →
      ∃ ra rb, getScopedName a 0 = Except.ok ra ∧ getScopedName b 0 = Except.ok rb ∧
        getScopedName (a ++ b) 0 = Except.ok (ra ++ "::" ++ rb)) ∧
    (∀ (names : List String) (k : Int), names.length ≤ 2147483647 → 0 ≤ k →
      k ≤ (names.length : Int) →
      getScopedName names k = getScopedName (names.drop k.toNat) 0) := by
  have hzero : ∀ l : List String, l.length ≤ 2147483647 →
      getScopedName l 0 = Except.ok (String.intercalate "::" l) := by
    intro l hl
    have h := getScopedName_natCast l 0 hl (by omega)
    rw [List.drop_zero] at h
    exact h
  constructor
  · intro a b ha hb hlen
    rw [List.length_append] at hlen
    refine ⟨_, _, hzero a (by omega), hzero b (by omega), ?_⟩
    rw [hzero (a ++ b) (by rw [List.length_append]; omega), intercalate_append a b ha hb]
  · intro names k hsize hk0 hkle
    obtain ⟨j, rfl⟩ : ∃ j : Nat, k = (j : Int) := ⟨k.toNat, by omega⟩
    rw [Int.toNat_ofNat, getScopedName_natCast names j hsize (by omega),
      hzero (names.drop j) (by rw [List.length_drop]; omega)]

/-- Witness for claim C12: `A::B` and `C`, and `A::B::C` from index 1. -/
theorem getScopedName_append_and_drop_witness :
    (∃ ra rb, getScopedName ["A", "B"] 0 = Except.ok ra ∧
      getScopedName ["C"] 0 = Except.ok rb ∧
      getScopedName (["A", "B"] ++ ["C"]) 0 = Except.ok (ra ++ "::" ++ rb)) ∧
    getScopedName ["A", "B", "C"] 1 = getScopedName (["A", "B", "C"].drop (1 : Int).toNat) 0 :=
  ⟨getScopedName_append_and_drop.1 ["A", "B"] ["C"] (by decide) (by decide) (by decide),
    getScopedName_append_and_drop.2 ["A", "B", "C"] 1 (by decide) (by decide) (by decide)⟩

/-- Claim C13: every entry of `allowedInputOutputTypes` of the form `q::t`, which is what
`getScopedName` renders for the two-segment path `[q, t]`, has its qualifier `q` in
`allowedScopePrefixes`; such entries exist, for instance
`TESTEXA::QueryQpiFunctions_input`. -/
theorem qualified_io_types_have_allowed_qualifier :
    (∀ q t : String, getScopedName [q, t] 0 = Except.ok (q ++ "::" ++ t) ∧
      (q ++ "::" ++ t ∈ allowedInputOutputTypes → q ∈ allowedScopePrefixes)) ∧
    getScopedName ["TESTEXA", "QueryQpiFunctions_input"] 0 =
      Except.ok "TESTEXA::QueryQpiFunctions_input" ∧
    "TESTEXA::QueryQpiFunctions_input" ∈ allowedInputOutputTypes ∧
    "TESTEXA::QueryQpiFunctions_output" ∈ allowedInputOutputTypes ∧
    "TESTEXA" ∈ allowedScopePrefixes := by
  refine ⟨?_, by decide, by decide, by decide, by decide⟩
  intro q t
  constructor
  · have h := getScopedName_natCast [q, t] 0 (by show 2 ≤ 2147483647; omega) (by omega)
    rw [List.drop_zero, intercalate_cons] at h
    have hcast : getScopedName [q, t] ((0 : Nat) : Int) = getScopedName [q, t] 0 := rfl
    rw [hcast] at h
    rw [h]
    simp only [sepTail, String.append_empty, String.append_assoc]
  · intro hmem
    have hall : ∀ e ∈ allowedInputOutputTypes, ∀ r ∈ qualifiersOf e.data,
        String.mk r ∈ allowedScopePrefixes := by
      decide
    have hq : q.data ∈ qualifiersOf (q ++ "::" ++ t).data :=
      mem_qualifiersOf q.data t.data _ (by
        rw [String.data_append, String.data_append]
        simp)
    exact hall _ hmem _ hq

/-- Witness for claim C13: the qualifier of `TESTEXA::QueryQpiFunctions_output`. -/
theorem qualified_io_types_have_allowed_qualifier_witness :
    "TESTEXA" ∈ allowedScopePrefixes :=
  (qualified_io_types_have_allowed_qualifier.1 "TESTEXA" "QueryQpiFunctions_output").2
    (by decide)

/-- Claim C14: for every entry of `knownMacroNames` of the form `m` followed by
`_WITH_LOCALS`, the plain name `m` is an entry of `knownMacroNames` too; there are 14 such
entries. -/
theorem withLocals_has_plain_variant :
    (∀ m : String, m ++ "_WITH_LOCALS" ∈ knownMacroNames → m ∈ knownMacroNames) ∧
    (plainNames knownMacroNames "_WITH_LOCALS").length = 14 ∧
    (∀ m ∈ plainNames knownMacroNames "_WITH_LOCALS",
      m ++ "_WITH_LOCALS" ∈ knownMacroNames) := by
  refine ⟨?_, by decide, by decide⟩
  intro m hmem
  have hall : ∀ p ∈ plainNames knownMacroNames "_WITH_LOCALS", p ∈ knownMacroNames := by
    decide
  exact hall m (mem_plainNames knownMacroNames "_WITH_LOCALS" m hmem)

/-- Witness for claim C14: from `PUBLIC_PROCEDURE_WITH_LOCALS` to `PUBLIC_PROCEDURE`. -/
theorem withLocals_has_plain_variant_witness : "PUBLIC_PROCEDURE" ∈ knownMacroNames :=
  withLocals_has_plain_variant.1 "PUBLIC_PROCEDURE" (by decide)

end contractverify
